import Mathlib

/-
Shallow embedding of the ConcurrentMap repository: two sharded concurrent
integer sets, velocity::VelocitySet (src/velocity_set.h) and
Impl1::ConcurrentSet (src/unnamed/part_000, concurrent_set_impl1.h).
Keys are modelled as mathematical integers; the C++ cast
static_cast<size_t>(item) is modelled as reduction modulo 2^64.
Each bucket is the contents of its std::unordered_set, modelled as a
Finset of integers; per-bucket spin locks serialize access in the C++
code, so the sequential semantics below is the state transformer each
public operation performs on bucket contents.
-/

namespace velocity

/-- Model of static_cast<size_t>(item) in hash_to_index: the unsigned
64-bit bit pattern of the integer key. -/
def toSizeT (item : Int) : Nat := (item % (2 ^ 64 : Int)).toNat

/-- is_power_of_two from velocity_set.h: (n > 0) && ((n & (n - 1)) == 0). -/
def is_power_of_two (n : Nat) : Bool :=
  decide (0 < n) && (n &&& (n - 1) == 0)

/-- next_power_of_two from velocity_set.h: bit-smearing on size_t.
The n-- / OR-shift cascade / n++ sequence is reproduced literally; the
final increment is taken modulo 2^64 because the C++ computation is on
size_t. -/
def next_power_of_two (n : Nat) : Nat :=
  if n = 0 then 1
  else
    let m0 := n - 1
    let m1 := m0 ||| (m0 >>> 1)
    let m2 := m1 ||| (m1 >>> 2)
    let m3 := m2 ||| (m2 >>> 4)
    let m4 := m3 ||| (m3 >>> 8)
    let m5 := m4 ||| (m4 >>> 16)
    let m6 := m5 ||| (m5 >>> 32)
    (m6 + 1) % 2 ^ 64

/-- calculate_default_buckets from velocity_set.h, with the detected
hardware thread count (std::thread::hardware_concurrency, an unsigned
int) passed in as hw. The guard hw < UINT_MAX / 16 is the literal
condition from the source. -/
def calculate_default_buckets (hw : Nat) : Nat :=
  let desired := 128
  let desired :=
    if 0 < hw ∧ hw < 4294967295 / 16 then max desired (hw * 16) else desired
  next_power_of_two desired

/-- State of a velocity::VelocitySet: the vector of buckets (each the
contents of its unordered_set), the stored bucket count and the stored
mask, mirroring the three data members buckets_, buckets_count_ and
bucket_mask_. -/
structure VelocitySet where
  buckets_ : List (Finset Int)
  buckets_count_ : Nat
  bucket_mask_ : Nat
deriving DecidableEq

/-- The only error kind: std::invalid_argument thrown by the constructor. -/
inductive ConfigError
  | InvalidConfiguration
deriving DecidableEq

/-- The VelocitySet constructor: bucket_count = 0 selects the default
sizing; a non-zero non-power-of-two throws; otherwise the request is
used as is. The mask is count - 1 and the bucket vector is resized to
count default (empty) buckets. -/
def VelocitySet.create (bucket_count : Nat) (hw : Nat) :
    Except ConfigError VelocitySet :=
  if bucket_count = 0 then
    let c := calculate_default_buckets hw
    .ok { buckets_ := List.replicate c ∅, buckets_count_ := c,
          bucket_mask_ := c - 1 }
  else if is_power_of_two bucket_count then
    .ok { buckets_ := List.replicate bucket_count ∅,
          buckets_count_ := bucket_count, bucket_mask_ := bucket_count - 1 }
  else
    .error ConfigError.InvalidConfiguration

/-- hash_to_index: static_cast<size_t>(item) & bucket_mask_. -/
def VelocitySet.hash_to_index (s : VelocitySet) (item : Int) : Nat :=
  toSizeT item &&& s.bucket_mask_

/-- Insert: route to the bucket of the item and insert it into that
bucket; unordered_set::insert collapses duplicates. -/
def VelocitySet.Insert (s : VelocitySet) (item : Int) : VelocitySet :=
  let i := s.hash_to_index item
  { s with buckets_ := s.buckets_.set i (insert item (s.buckets_.getD i ∅)) }

/-- Remove: route to the bucket of the item and erase it there;
unordered_set::erase of an absent key is a no-op. -/
def VelocitySet.Remove (s : VelocitySet) (item : Int) : VelocitySet :=
  let i := s.hash_to_index item
  { s with buckets_ := s.buckets_.set i ((s.buckets_.getD i ∅).erase item) }

/-- Contains: route to the bucket of the item and test membership there. -/
def VelocitySet.Contains (s : VelocitySet) (item : Int) : Bool :=
  decide (item ∈ s.buckets_.getD (s.hash_to_index item) ∅)

/-- GetBucketCount: returns the stored bucket count. -/
def VelocitySet.GetBucketCount (s : VelocitySet) : Nat :=
  s.buckets_count_

/-- Clear: every bucket is cleared in index order. -/
def VelocitySet.Clear (s : VelocitySet) : VelocitySet :=
  { s with buckets_ := s.buckets_.map (fun _ => (∅ : Finset Int)) }

/-- GetApproximateSize: the sum of the bucket sizes, read in index order. -/
def VelocitySet.GetApproximateSize (s : VelocitySet) : Nat :=
  (s.buckets_.map Finset.card).sum

/-- Well-formedness established by the constructor and preserved by every
operation: the bucket vector has exactly buckets_count_ entries, the
stored mask is count - 1, and the count is a power of two. -/
def VelocitySet.WF (s : VelocitySet) : Prop :=
  s.buckets_.length = s.buckets_count_ ∧
  s.bucket_mask_ = s.buckets_count_ - 1 ∧
  is_power_of_two s.buckets_count_ = true

instance (s : VelocitySet) : Decidable s.WF := by
  unfold VelocitySet.WF; infer_instance

/-- A mutating operation of the public API (Contains is read-only and is
quantified separately). -/
inductive Op
  | ins (k : Int)
  | del (k : Int)
  | clear
deriving DecidableEq

/-- Apply one mutating operation. -/
def VelocitySet.applyOp (s : VelocitySet) : Op → VelocitySet
  | .ins k => s.Insert k
  | .del k => s.Remove k
  | .clear => s.Clear

/-- Run a sequence of mutating operations from left to right. -/
def VelocitySet.run (s : VelocitySet) (ops : List Op) : VelocitySet :=
  ops.foldl VelocitySet.applyOp s

/-- Membership in the sharded set as a whole: the key occurs in some
bucket. -/
def VelocitySet.MemSet (s : VelocitySet) (k : Int) : Prop :=
  ∃ i, i < s.buckets_.length ∧ k ∈ s.buckets_.getD i ∅

/-- Bucket-assignment invariant: bucket i only holds keys whose computed
index is i. -/
def VelocitySet.BucketInv (s : VelocitySet) : Prop :=
  ∀ i, i < s.buckets_.length → ∀ k, k ∈ s.buckets_.getD i ∅ →
    s.hash_to_index k = i

end velocity

namespace Impl1

/-- State of an Impl1::ConcurrentSet: only the bucket vector; the mask is
recomputed from buckets_.size() on every call. -/
structure ConcurrentSet where
  buckets_ : List (Finset Int)
deriving DecidableEq

/-- The p2 <<= 1 loop of optimalBuckets: while (p2 < desired) p2 <<= 1.
Structured with explicit fuel; desired units of fuel always suffice
because p2 doubles on each iteration starting from 1 (proved below in
p2Loop_eq, which never exhausts the fuel under that bound). -/
def p2Loop (desired : Nat) : Nat → Nat → Nat
  | 0, p2 => p2
  | fuel + 1, p2 => if p2 < desired then p2Loop desired fuel (p2 * 2) else p2

/-- optimalBuckets from concurrent_set_impl1.h, with the detected
hardware thread count passed in as hw: desired = hc ? hc * 16 : 128,
then the smallest power of two not below desired via the doubling loop. -/
def optimalBuckets (hw : Nat) : Nat :=
  let desired := if hw ≠ 0 then hw * 16 else 128
  p2Loop desired desired 1

/-- The ConcurrentSet constructor: buckets default-constructed buckets,
no validation of any kind. -/
def ConcurrentSet.create (buckets : Nat) : ConcurrentSet :=
  { buckets_ := List.replicate buckets ∅ }

/-- bucketIndex: static_cast<size_t>(item) & (buckets_.size() - 1). -/
def ConcurrentSet.bucketIndex (s : ConcurrentSet) (item : Int) : Nat :=
  velocity.toSizeT item &&& (s.buckets_.length - 1)

/-- Include: insert into the bucket of the item. -/
def ConcurrentSet.Include (s : ConcurrentSet) (item : Int) : ConcurrentSet :=
  let i := s.bucketIndex item
  { buckets_ := s.buckets_.set i (insert item (s.buckets_.getD i ∅)) }

/-- Exclude: erase from the bucket of the item. -/
def ConcurrentSet.Exclude (s : ConcurrentSet) (item : Int) : ConcurrentSet :=
  let i := s.bucketIndex item
  { buckets_ := s.buckets_.set i ((s.buckets_.getD i ∅).erase item) }

/-- Contains: membership test in the bucket of the item. -/
def ConcurrentSet.Contains (s : ConcurrentSet) (item : Int) : Bool :=
  decide (item ∈ s.buckets_.getD (s.bucketIndex item) ∅)

end Impl1

/-- A core mutating operation shared by the two implementations, for the
observational-equivalence comparison: VelocitySet interprets ins as
Insert and del as Remove, ConcurrentSet as Include and Exclude. -/
inductive CoreOp
  | ins (k : Int)
  | del (k : Int)
deriving DecidableEq

/-- Run core operations on a VelocitySet. -/
def velocity.VelocitySet.runCore (s : velocity.VelocitySet)
    (ops : List CoreOp) : velocity.VelocitySet :=
  ops.foldl (fun t op => match op with
    | .ins k => t.Insert k
    | .del k => t.Remove k) s

/-- Run core operations on a ConcurrentSet. -/
def Impl1.ConcurrentSet.runCore (s : Impl1.ConcurrentSet)
    (ops : List CoreOp) : Impl1.ConcurrentSet :=
  ops.foldl (fun t op => match op with
    | .ins k => t.Include k
    | .del k => t.Exclude k) s

namespace velocity

theorem two_pow_le_of_testBit {x j : Nat} (h : x.testBit j = true) : 2 ^ j ≤ x := by
  by_contra hlt
  rw [Nat.testBit_lt_two_pow (by omega)] at h
  exact Bool.false_ne_true h

theorem testBit_true_of_between {x j : Nat} (h1 : 2 ^ j ≤ x)
    (h2 : x < 2 ^ (j + 1)) : x.testBit j = true := by
  rw [Nat.testBit_to_div_mod]
  have hpos : 0 < 2 ^ j := Nat.pos_pow_of_pos j (by omega)
  have hdiv : x / 2 ^ j = 1 := by
    have h3 : 1 ≤ x / 2 ^ j := (Nat.le_div_iff_mul_le hpos).2 (by omega)
    have h4 : x / 2 ^ j < 2 := by
      rw [Nat.div_lt_iff_lt_mul hpos]
      have h5 : 2 ^ (j + 1) = 2 * 2 ^ j := by rw [Nat.pow_succ]; ring
      omega
    omega
  rw [hdiv]
  decide

theorem testBit_size_pred {n : Nat} (h : 0 < n) :
    n.testBit (n.size - 1) = true := by
  have h1 : 0 < n.size := Nat.size_pos.2 h
  have h2 : 2 ^ (n.size - 1) ≤ n := Nat.lt_size.1 (by omega)
  have h3 : n < 2 ^ (n.size - 1 + 1) := by
    have h4 := Nat.lt_size_self n
    have h5 : n.size - 1 + 1 = n.size := by omega
    rw [h5]
    exact h4
  exact testBit_true_of_between h2 h3

theorem is_power_of_two_iff {n : Nat} :
    is_power_of_two n = true ↔ ∃ j, n = 2 ^ j := by
  unfold is_power_of_two
  simp only [Bool.and_eq_true, decide_eq_true_eq, beq_iff_eq]
  constructor
  · rintro ⟨hpos, hand⟩
    refine ⟨n.size - 1, ?_⟩
    by_contra hne
    have h1 : 0 < n.size := Nat.size_pos.2 hpos
    have h2 : 2 ^ (n.size - 1) ≤ n := Nat.lt_size.1 (by omega)
    have h3 : n < 2 ^ n.size := Nat.lt_size_self n
    have h5 : n.testBit (n.size - 1) = true := testBit_size_pred hpos
    have h6 : (n - 1).testBit (n.size - 1) = true := by
      apply testBit_true_of_between
      · omega
      · have h7 : n.size - 1 + 1 = n.size := by omega
        rw [h7]
        omega
    have h8 : (n &&& (n - 1)).testBit (n.size - 1) = true := by
      rw [Nat.testBit_and, h5, h6]
      rfl
    rw [hand] at h8
    rw [Nat.zero_testBit] at h8
    exact Bool.false_ne_true h8
  · rintro ⟨j, rfl⟩
    refine ⟨Nat.pos_pow_of_pos j (by omega), ?_⟩
    rw [Nat.and_pow_two_sub_one_eq_mod]
    exact Nat.mod_self _

theorem smear_testBit (x c i : Nat) :
    (x ||| x >>> c).testBit i = (x.testBit i || x.testBit (i + c)) := by
  simp [Nat.testBit_or, Nat.testBit_shiftRight, Nat.add_comm]

theorem smear_step {m x : Nat} (c : Nat)
    (hx : ∀ i, x.testBit i = true ↔ ∃ d, d < c ∧ m.testBit (i + d) = true) :
    ∀ i, (x ||| x >>> c).testBit i = true ↔
      ∃ d, d < 2 * c ∧ m.testBit (i + d) = true := by
  intro i
  rw [smear_testBit, Bool.or_eq_true, hx i, hx (i + c)]
  constructor
  · rintro (⟨d, hd, hbit⟩ | ⟨d, hd, hbit⟩)
    · exact ⟨d, by omega, hbit⟩
    · refine ⟨c + d, by omega, ?_⟩
      rwa [← Nat.add_assoc]
  · rintro ⟨d, hd, hbit⟩
    by_cases hdc : d < c
    · exact Or.inl ⟨d, hdc, hbit⟩
    · refine Or.inr ⟨d - c, by omega, ?_⟩
      have h9 : i + c + (d - c) = i + d := by omega
      rwa [h9]

theorem smear_chain_eq {m : Nat} (hm : m < 2 ^ 63) :
    (let m1 := m ||| (m >>> 1)
     let m2 := m1 ||| (m1 >>> 2)
     let m3 := m2 ||| (m2 >>> 4)
     let m4 := m3 ||| (m3 >>> 8)
     let m5 := m4 ||| (m4 >>> 16)
     m5 ||| (m5 >>> 32)) = 2 ^ m.size - 1 := by
  have base : ∀ i, m.testBit i = true ↔ ∃ d, d < 1 ∧ m.testBit (i + d) = true := by
    intro i
    constructor
    · intro h
      exact ⟨0, by omega, by simpa using h⟩
    · rintro ⟨d, hd, h⟩
      have hd0 : d = 0 := by omega
      rw [hd0] at h
      simpa using h
  have s1 := smear_step 1 base
  have s2 := smear_step 2 s1
  have s3 := smear_step 4 s2
  have s4 := smear_step 8 s3
  have s5 := smear_step 16 s4
  have s6 := smear_step 32 s5
  have hsz : m.size ≤ 63 := Nat.size_le.2 hm
  apply Nat.eq_of_testBit_eq
  intro i
  rw [Nat.testBit_two_pow_sub_one]
  have hiff : (∃ d, d < 64 ∧ m.testBit (i + d) = true) ↔ i < m.size := by
    constructor
    · rintro ⟨d, hd, hbit⟩
      have h1 := two_pow_le_of_testBit hbit
      have h2 : i + d < m.size := Nat.lt_size.2 h1
      omega
    · intro hi
      have hpos : 0 < m := by
        by_contra h0
        have hz : m = 0 := by omega
        rw [hz, Nat.size_zero] at hi
        omega
      have h1 : 0 < m.size := Nat.size_pos.2 hpos
      refine ⟨m.size - 1 - i, by omega, ?_⟩
      have h2 : i + (m.size - 1 - i) = m.size - 1 := by omega
      rw [h2]
      exact testBit_size_pred hpos
  by_cases hi : i < m.size
  · rw [decide_eq_true hi]
    exact (s6 i).2 (hiff.2 hi)
  · rw [decide_eq_false hi]
    rw [← Bool.not_eq_true]
    intro hb'
    exact hi (hiff.1 ((s6 i).1 hb'))

theorem next_power_of_two_eq {n : Nat} (h1 : 0 < n) (h2 : n - 1 < 2 ^ 63) :
    next_power_of_two n = 2 ^ (n - 1).size := by
  have hne : ¬ n = 0 := by omega
  have hch := smear_chain_eq h2
  simp only at hch
  rw [next_power_of_two, if_neg hne]
  simp only
  rw [hch]
  have hone : 1 ≤ 2 ^ (n - 1).size := Nat.one_le_two_pow
  have hsz : (n - 1).size ≤ 63 := Nat.size_le.2 h2
  have hlt : 2 ^ (n - 1).size < 2 ^ 64 :=
    Nat.pow_lt_pow_right (by omega) (by omega)
  rw [Nat.sub_add_cancel hone, Nat.mod_eq_of_lt hlt]

theorem next_power_of_two_ge {n : Nat} (h1 : 0 < n) (h2 : n - 1 < 2 ^ 63) :
    n ≤ next_power_of_two n := by
  rw [next_power_of_two_eq h1 h2]
  have h3 := Nat.lt_size_self (n - 1)
  omega

theorem next_power_of_two_mono {m n : Nat} (h0 : 0 < m) (hmn : m ≤ n)
    (h2 : n - 1 < 2 ^ 63) :
    next_power_of_two m ≤ next_power_of_two n := by
  rw [next_power_of_two_eq h0 (by omega), next_power_of_two_eq (by omega) h2]
  exact Nat.pow_le_pow_right (by omega) (Nat.size_le_size (by omega))

theorem next_power_of_two_le {n j : Nat} (hle : n ≤ 2 ^ j) (hj : j ≤ 63) :
    next_power_of_two n ≤ 2 ^ j := by
  by_cases h0 : n = 0
  · rw [h0]
    have h01 : next_power_of_two 0 = 1 := by decide
    rw [h01]
    exact Nat.one_le_two_pow
  · have h1 : 0 < n := by omega
    have h63 : n - 1 < 2 ^ 63 := by
      have h2 : 2 ^ j ≤ 2 ^ 63 := Nat.pow_le_pow_right (by omega) hj
      omega
    rw [next_power_of_two_eq h1 h63]
    exact Nat.pow_le_pow_right (by omega) (Nat.size_le.2 (by omega))

theorem calculate_default_buckets_unfold (hw : Nat) :
    calculate_default_buckets hw =
      next_power_of_two
        (if 0 < hw ∧ hw < 4294967295 / 16 then max 128 (hw * 16) else 128) :=
  rfl

theorem calculate_default_buckets_eq {hw : Nat} (h : hw < 4294967295 / 16) :
    calculate_default_buckets hw = max 128 (next_power_of_two (hw * 16)) := by
  rw [calculate_default_buckets_unfold]
  by_cases h0 : 0 < hw
  · rw [if_pos ⟨h0, h⟩]
    have hbound : hw * 16 ≤ 4294967264 := by omega
    by_cases hle : hw * 16 ≤ 128
    · rw [Nat.max_eq_left hle]
      have h128 : next_power_of_two 128 = 128 := by decide
      rw [h128]
      have hnp : next_power_of_two (hw * 16) ≤ 128 := by
        have h7 : (128 : Nat) = 2 ^ 7 := by norm_num
        rw [h7]
        exact next_power_of_two_le (by omega) (by omega)
      omega
    · rw [Nat.max_eq_right (by omega)]
      have hge : hw * 16 ≤ next_power_of_two (hw * 16) :=
        next_power_of_two_ge (by omega) (by omega)
      rw [Nat.max_eq_right (by omega)]
  · rw [if_neg (by omega)]
    have hz : hw = 0 := by omega
    rw [hz]
    decide

theorem calculate_default_buckets_overflow {hw : Nat}
    (h : 4294967295 / 16 ≤ hw) :
    calculate_default_buckets hw = 128 := by
  rw [calculate_default_buckets_unfold, if_neg (by omega)]
  decide

theorem calculate_default_buckets_spec (hw : Nat) :
    128 ≤ calculate_default_buckets hw ∧
      ∃ j, calculate_default_buckets hw = 2 ^ j := by
  rw [calculate_default_buckets_unfold]
  set d := if 0 < hw ∧ hw < 4294967295 / 16 then max 128 (hw * 16) else 128
    with hd
  have hd128 : 128 ≤ d := by
    rw [hd]
    split
    · exact Nat.le_max_left _ _
    · omega
  have hdle : d ≤ 4294967264 := by
    rw [hd]
    split
    · rename_i hcond
      have h1 : hw * 16 ≤ 4294967264 := by omega
      exact Nat.max_le.2 ⟨by omega, h1⟩
    · omega
  have hdlt : d - 1 < 2 ^ 63 := by
    have : (4294967264 : Nat) < 2 ^ 63 := by norm_num
    omega
  constructor
  · exact le_trans hd128 (next_power_of_two_ge (by omega) hdlt)
  · exact ⟨(d - 1).size, next_power_of_two_eq (by omega) hdlt⟩

end velocity

namespace Impl1

theorem p2Loop_eq {desired : Nat} (hd : 0 < desired) :
    ∀ fuel k, k ≤ (desired - 1).size → desired ≤ 2 ^ (k + fuel) →
      p2Loop desired fuel (2 ^ k) = 2 ^ (desired - 1).size := by
  intro fuel
  induction fuel with
  | zero =>
    intro k hk hle
    rw [Nat.add_zero] at hle
    have h1 : (desired - 1).size ≤ k := Nat.size_le.2 (by omega)
    have h2 : k = (desired - 1).size := by omega
    rw [p2Loop, h2]
  | succ fuel ih =>
    intro k hk hle
    rw [p2Loop]
    by_cases hlt : 2 ^ k < desired
    · rw [if_pos hlt]
      have hk1 : k + 1 ≤ (desired - 1).size := by
        have h3 : 2 ^ k ≤ desired - 1 := by omega
        have h4 := Nat.lt_size.2 h3
        omega
      have hp : (2 : Nat) ^ k * 2 = 2 ^ (k + 1) := by rw [Nat.pow_succ]
      rw [hp]
      apply ih (k + 1) hk1
      have h5 : k + 1 + fuel = k + (fuel + 1) := by omega
      rw [h5]
      exact hle
    · rw [if_neg hlt]
      have h1 : (desired - 1).size ≤ k := Nat.size_le.2 (by omega)
      have h2 : k = (desired - 1).size := by omega
      rw [h2]

theorem optimalBuckets_pos_eq {hw : Nat} (h0 : 0 < hw) :
    optimalBuckets hw = 2 ^ (hw * 16 - 1).size := by
  have hne : hw ≠ 0 := by omega
  rw [optimalBuckets]
  simp only [hne, ne_eq, not_false_eq_true, if_true]
  have h1 := @p2Loop_eq (hw * 16) (by omega) (hw * 16) 0
    (by omega) (by simpa using Nat.le_of_lt (Nat.lt_two_pow _))
  simpa using h1

theorem optimalBuckets_ge {hw : Nat} (h0 : 0 < hw) :
    hw * 16 ≤ optimalBuckets hw := by
  rw [optimalBuckets_pos_eq h0]
  have h1 := Nat.lt_size_self (hw * 16 - 1)
  omega

theorem optimalBuckets_min {hw j : Nat} (h0 : 0 < hw) (h : hw * 16 ≤ 2 ^ j) :
    optimalBuckets hw ≤ 2 ^ j := by
  rw [optimalBuckets_pos_eq h0]
  exact Nat.pow_le_pow_right (by omega) (Nat.size_le.2 (by omega))

end Impl1

theorem list_getD_set_self {α : Type} (l : List α) (i : Nat) (v d : α)
    (h : i < l.length) : (l.set i v).getD i d = v := by
  rw [List.getD_eq_getElem?_getD, List.getElem?_set_self (by simpa using h)]
  rfl

theorem list_getD_set_ne {α : Type} (l : List α) (i j : Nat) (v d : α)
    (h : i ≠ j) : (l.set i v).getD j d = l.getD j d := by
  rw [List.getD_eq_getElem?_getD, List.getD_eq_getElem?_getD,
    List.getElem?_set_ne h]

theorem list_set_getD_self {α : Type} (l : List α) (i : Nat) (d : α)
    (h : i < l.length) : l.set i (l.getD i d) = l := by
  apply List.ext_getElem
  · simp
  · intro j h1 h2
    rw [List.getElem_set]
    split
    · rename_i hij
      subst hij
      rw [List.getD_eq_getElem?_getD, List.getElem?_eq_getElem h]
      rfl
    · rfl

theorem list_getD_replicate {α : Type} (n i : Nat) (d : α) :
    (List.replicate n d).getD i d = d := by
  rw [List.getD_eq_getElem?_getD, List.getElem?_replicate]
  split <;> rfl

theorem list_sum_map_set (l : List (Finset Int)) (i : Nat) (v : Finset Int)
    (h : i < l.length) :
    ((l.set i v).map Finset.card).sum + (l.getD i ∅).card
      = (l.map Finset.card).sum + v.card := by
  induction l generalizing i with
  | nil => simp at h
  | cons a t ih =>
    cases i with
    | zero =>
      simp only [List.set_cons_zero, List.map_cons, List.sum_cons,
        List.getD_cons_zero]
      omega
    | succ i' =>
      have h' : i' < t.length := by simpa using h
      simp only [List.set_cons_succ, List.map_cons, List.sum_cons,
        List.getD_cons_succ]
      have h9 := ih i' h'
      omega

namespace velocity

theorem VelocitySet.WF.hash_lt {s : VelocitySet} (h : s.WF) (k : Int) :
    s.hash_to_index k < s.buckets_.length := by
  obtain ⟨hlen, hmask, hpow⟩ := h
  obtain ⟨j, hj⟩ := is_power_of_two_iff.1 hpow
  rw [VelocitySet.hash_to_index, hmask, hlen, hj,
    Nat.and_pow_two_sub_one_eq_mod]
  exact Nat.mod_lt _ (Nat.pos_pow_of_pos j (by omega))

theorem VelocitySet.hash_eq_mod {s : VelocitySet} (h : s.WF) (k : Int) :
    s.hash_to_index k = toSizeT k % s.buckets_count_ := by
  obtain ⟨hlen, hmask, hpow⟩ := h
  obtain ⟨j, hj⟩ := is_power_of_two_iff.1 hpow
  rw [VelocitySet.hash_to_index, hmask, hj,
    Nat.and_pow_two_sub_one_eq_mod]

theorem VelocitySet.Insert_fields (s : VelocitySet) (k : Int) :
    (s.Insert k).buckets_count_ = s.buckets_count_ ∧
    (s.Insert k).bucket_mask_ = s.bucket_mask_ ∧
    (s.Insert k).buckets_.length = s.buckets_.length := by
  refine ⟨rfl, rfl, ?_⟩
  simp [VelocitySet.Insert]

theorem VelocitySet.Remove_fields (s : VelocitySet) (k : Int) :
    (s.Remove k).buckets_count_ = s.buckets_count_ ∧
    (s.Remove k).bucket_mask_ = s.bucket_mask_ ∧
    (s.Remove k).buckets_.length = s.buckets_.length := by
  refine ⟨rfl, rfl, ?_⟩
  simp [VelocitySet.Remove]

theorem VelocitySet.Clear_fields (s : VelocitySet) :
    s.Clear.buckets_count_ = s.buckets_count_ ∧
    s.Clear.bucket_mask_ = s.bucket_mask_ ∧
    s.Clear.buckets_.length = s.buckets_.length := by
  refine ⟨rfl, rfl, ?_⟩
  simp [VelocitySet.Clear]

theorem VelocitySet.WF.insert {s : VelocitySet} (h : s.WF) (k : Int) :
    (s.Insert k).WF := by
  obtain ⟨h1, h2, h3⟩ := h
  exact ⟨by simpa [VelocitySet.Insert] using h1, h2, h3⟩

theorem VelocitySet.WF.remove {s : VelocitySet} (h : s.WF) (k : Int) :
    (s.Remove k).WF := by
  obtain ⟨h1, h2, h3⟩ := h
  exact ⟨by simpa [VelocitySet.Remove] using h1, h2, h3⟩

theorem VelocitySet.WF.clear {s : VelocitySet} (h : s.WF) : s.Clear.WF := by
  obtain ⟨h1, h2, h3⟩ := h
  exact ⟨by simpa [VelocitySet.Clear] using h1, h2, h3⟩

theorem VelocitySet.hash_Insert (s : VelocitySet) (k k' : Int) :
    (s.Insert k).hash_to_index k' = s.hash_to_index k' := rfl

theorem VelocitySet.hash_Remove (s : VelocitySet) (k k' : Int) :
    (s.Remove k).hash_to_index k' = s.hash_to_index k' := rfl

theorem VelocitySet.hash_Clear (s : VelocitySet) (k' : Int) :
    s.Clear.hash_to_index k' = s.hash_to_index k' := rfl

theorem VelocitySet.Contains_Insert {s : VelocitySet} (h : s.WF)
    (k k' : Int) :
    (s.Insert k).Contains k' = (decide (k' = k) || s.Contains k') := by
  have hi := h.hash_lt k
  rw [VelocitySet.Contains, VelocitySet.hash_Insert]
  by_cases he : s.hash_to_index k' = s.hash_to_index k
  · rw [show (s.Insert k).buckets_
        = s.buckets_.set (s.hash_to_index k)
            (insert k (s.buckets_.getD (s.hash_to_index k) ∅)) from rfl]
    rw [he, list_getD_set_self _ _ _ _ hi]
    rw [VelocitySet.Contains, he]
    rw [← Bool.decide_or]
    exact decide_eq_decide.2 Finset.mem_insert
  · rw [show (s.Insert k).buckets_
        = s.buckets_.set (s.hash_to_index k)
            (insert k (s.buckets_.getD (s.hash_to_index k) ∅)) from rfl]
    rw [list_getD_set_ne _ _ _ _ _ (fun hx => he hx.symm)]
    have hkk : k' ≠ k := by
      intro hx
      exact he (by rw [hx])
    rw [decide_eq_false hkk, Bool.false_or, VelocitySet.Contains]

theorem VelocitySet.Contains_Remove {s : VelocitySet} (h : s.WF)
    (k k' : Int) :
    (s.Remove k).Contains k' = (decide (k' ≠ k) && s.Contains k') := by
  have hi := h.hash_lt k
  rw [VelocitySet.Contains, VelocitySet.hash_Remove]
  by_cases he : s.hash_to_index k' = s.hash_to_index k
  · rw [show (s.Remove k).buckets_
        = s.buckets_.set (s.hash_to_index k)
            ((s.buckets_.getD (s.hash_to_index k) ∅).erase k) from rfl]
    rw [he, list_getD_set_self _ _ _ _ hi]
    rw [VelocitySet.Contains, he]
    rw [← Bool.decide_and]
    exact decide_eq_decide.2 Finset.mem_erase
  · rw [show (s.Remove k).buckets_
        = s.buckets_.set (s.hash_to_index k)
            ((s.buckets_.getD (s.hash_to_index k) ∅).erase k) from rfl]
    rw [list_getD_set_ne _ _ _ _ _ (fun hx => he hx.symm)]
    have hkk : k' ≠ k := by
      intro hx
      exact he (by rw [hx])
    rw [decide_eq_true hkk, Bool.true_and, VelocitySet.Contains]

theorem VelocitySet.Contains_Clear (s : VelocitySet) (k : Int) :
    s.Clear.Contains k = false := by
  rw [VelocitySet.Contains, VelocitySet.hash_Clear]
  rw [show s.Clear.buckets_ = s.buckets_.map (fun _ => (∅ : Finset Int))
    from rfl]
  rw [List.getD_eq_getElem?_getD, List.getElem?_map]
  cases s.buckets_[s.hash_to_index k]? <;> simp

theorem VelocitySet.Insert_buckets (s : VelocitySet) (k : Int) :
    (s.Insert k).buckets_
      = s.buckets_.set (s.hash_to_index k)
          (insert k (s.buckets_.getD (s.hash_to_index k) ∅)) := rfl

theorem VelocitySet.Remove_buckets (s : VelocitySet) (k : Int) :
    (s.Remove k).buckets_
      = s.buckets_.set (s.hash_to_index k)
          ((s.buckets_.getD (s.hash_to_index k) ∅).erase k) := rfl

theorem VelocitySet.ext_eq {s t : VelocitySet} (hb : s.buckets_ = t.buckets_)
    (hc : s.buckets_count_ = t.buckets_count_)
    (hm : s.bucket_mask_ = t.bucket_mask_) : s = t := by
  obtain ⟨b1, c1, m1⟩ := s
  obtain ⟨b2, c2, m2⟩ := t
  simp only at hb hc hm
  rw [hb, hc, hm]

theorem VelocitySet.Insert_idem {s : VelocitySet} (h : s.WF) (k : Int) :
    (s.Insert k).Insert k = s.Insert k := by
  have hi := h.hash_lt k
  refine VelocitySet.ext_eq ?_ rfl rfl
  rw [VelocitySet.Insert_buckets ((s.Insert k)), VelocitySet.hash_Insert,
    VelocitySet.Insert_buckets, list_getD_set_self _ _ _ _ hi,
    List.set_set, Finset.insert_idem]

theorem VelocitySet.Remove_absent {s : VelocitySet} (h : s.WF) (k : Int)
    (habs : s.Contains k = false) : s.Remove k = s := by
  have hi := h.hash_lt k
  have hmem : k ∉ s.buckets_.getD (s.hash_to_index k) ∅ := by
    intro hx
    rw [VelocitySet.Contains, decide_eq_true hx] at habs
    exact absurd habs (by simp)
  refine VelocitySet.ext_eq ?_ rfl rfl
  rw [VelocitySet.Remove_buckets, Finset.erase_eq_of_not_mem hmem,
    list_set_getD_self _ _ _ hi]

theorem VelocitySet.Insert_frame (s : VelocitySet) (k : Int) (j : Nat)
    (hj : j ≠ s.hash_to_index k) :
    (s.Insert k).buckets_.getD j ∅ = s.buckets_.getD j ∅ := by
  rw [VelocitySet.Insert_buckets]
  exact list_getD_set_ne _ _ _ _ _ (fun hx => hj hx.symm)

theorem VelocitySet.Remove_frame (s : VelocitySet) (k : Int) (j : Nat)
    (hj : j ≠ s.hash_to_index k) :
    (s.Remove k).buckets_.getD j ∅ = s.buckets_.getD j ∅ := by
  rw [VelocitySet.Remove_buckets]
  exact list_getD_set_ne _ _ _ _ _ (fun hx => hj hx.symm)

theorem VelocitySet.Insert_Remove_comm (s : VelocitySet) (k1 k2 : Int)
    (hne : s.hash_to_index k1 ≠ s.hash_to_index k2) :
    (s.Insert k1).Remove k2 = (s.Remove k2).Insert k1 := by
  refine VelocitySet.ext_eq ?_ rfl rfl
  have e1 : ((s.Insert k1).Remove k2).buckets_
      = (s.Insert k1).buckets_.set (s.hash_to_index k2)
          (((s.Insert k1).buckets_.getD (s.hash_to_index k2) ∅).erase k2) :=
    rfl
  have e2 : ((s.Remove k2).Insert k1).buckets_
      = (s.Remove k2).buckets_.set (s.hash_to_index k1)
          (insert k1 ((s.Remove k2).buckets_.getD (s.hash_to_index k1) ∅)) :=
    rfl
  rw [e1, e2, VelocitySet.Insert_frame s k1 _ (Ne.symm hne),
    VelocitySet.Remove_frame s k2 _ hne,
    VelocitySet.Insert_buckets, VelocitySet.Remove_buckets,
    List.set_comm _ _ _ hne]

theorem VelocitySet.size_Insert {s : VelocitySet} (h : s.WF) (k : Int) :
    (s.Insert k).GetApproximateSize
      = s.GetApproximateSize + (if s.Contains k then 0 else 1) := by
  have hi := h.hash_lt k
  have hs := list_sum_map_set s.buckets_ (s.hash_to_index k)
    (insert k (s.buckets_.getD (s.hash_to_index k) ∅)) hi
  rw [VelocitySet.GetApproximateSize, VelocitySet.GetApproximateSize,
    VelocitySet.Insert_buckets]
  by_cases hm : k ∈ s.buckets_.getD (s.hash_to_index k) ∅
  · have hc : s.Contains k = true := by
      rw [VelocitySet.Contains]
      exact decide_eq_true hm
    rw [if_pos hc]
    have hins : insert k (s.buckets_.getD (s.hash_to_index k) ∅)
        = s.buckets_.getD (s.hash_to_index k) ∅ := Finset.insert_eq_self.2 hm
    rw [hins] at hs ⊢
    omega
  · have hc : s.Contains k = false := by
      rw [VelocitySet.Contains]
      exact decide_eq_false hm
    rw [if_neg (by rw [hc]; exact Bool.false_ne_true)]
    have hcard : (insert k (s.buckets_.getD (s.hash_to_index k) ∅)).card
        = (s.buckets_.getD (s.hash_to_index k) ∅).card + 1 :=
      Finset.card_insert_of_not_mem hm
    omega

theorem VelocitySet.size_Clear (s : VelocitySet) :
    s.Clear.GetApproximateSize = 0 := by
  rw [VelocitySet.GetApproximateSize,
    show s.Clear.buckets_ = s.buckets_.map (fun _ => (∅ : Finset Int))
      from rfl, List.map_map]
  apply List.sum_eq_zero
  intro x hx
  rw [List.mem_map] at hx
  obtain ⟨b, hb, hbx⟩ := hx
  rw [← hbx]
  rfl

/-- Sequential bulk insertion, used to state the exact-count property. -/
def VelocitySet.insertList (s : VelocitySet) (ks : List Int) : VelocitySet :=
  ks.foldl VelocitySet.Insert s

theorem VelocitySet.insertList_cons (s : VelocitySet) (k : Int)
    (ks : List Int) :
    s.insertList (k :: ks) = (s.Insert k).insertList ks := rfl

theorem VelocitySet.WF.insertList {s : VelocitySet} (h : s.WF)
    (ks : List Int) : (s.insertList ks).WF := by
  induction ks generalizing s with
  | nil => exact h
  | cons a t ih => exact ih (h.insert a)

theorem VelocitySet.Contains_insertList {s : VelocitySet} (h : s.WF)
    (ks : List Int) (k : Int) :
    (s.insertList ks).Contains k = (decide (k ∈ ks) || s.Contains k) := by
  induction ks generalizing s with
  | nil => simp [VelocitySet.insertList]
  | cons a t ih =>
    rw [VelocitySet.insertList_cons, ih (h.insert a),
      VelocitySet.Contains_Insert h]
    have hmem : (k ∈ a :: t) ↔ (k ∈ t ∨ k = a) := by
      rw [List.mem_cons]
      tauto
    rw [decide_eq_decide.2 hmem, Bool.decide_or]
    cases decide (k ∈ t) <;> cases decide (k = a) <;>
      cases s.Contains k <;> rfl

theorem VelocitySet.size_insertList {s : VelocitySet} (h : s.WF)
    {ks : List Int} (hnd : ks.Nodup)
    (habs : ∀ x ∈ ks, s.Contains x = false) :
    (s.insertList ks).GetApproximateSize
      = s.GetApproximateSize + ks.length := by
  induction ks generalizing s with
  | nil => simp [VelocitySet.insertList]
  | cons a t ih =>
    rw [VelocitySet.insertList_cons]
    obtain ⟨hna, hnt⟩ := List.nodup_cons.1 hnd
    have habs' : ∀ x ∈ t, (s.Insert a).Contains x = false := by
      intro x hx
      rw [VelocitySet.Contains_Insert h]
      have hxa : x ≠ a := by
        intro he
        exact hna (he ▸ hx)
      rw [decide_eq_false hxa, Bool.false_or]
      exact habs x (by simp [hx])
    have h1 := ih (h.insert a) hnt habs'
    rw [h1, VelocitySet.size_Insert h,
      if_neg (by rw [habs a (by simp)]; exact Bool.false_ne_true)]
    simp only [List.length_cons]
    omega

theorem VelocitySet.create_ok {bc hw : Nat} {s : VelocitySet}
    (h : VelocitySet.create bc hw = .ok s) :
    s.WF ∧ s.buckets_ = List.replicate s.buckets_count_ ∅ := by
  rw [VelocitySet.create] at h
  by_cases h0 : bc = 0
  · rw [if_pos h0] at h
    simp only [Except.ok.injEq] at h
    obtain ⟨j, hj⟩ := (calculate_default_buckets_spec hw).2
    subst h
    refine ⟨⟨by simp, rfl, ?_⟩, by simp⟩
    exact is_power_of_two_iff.2 ⟨j, hj⟩
  · rw [if_neg h0] at h
    by_cases hp : is_power_of_two bc = true
    · rw [if_pos hp] at h
      simp only [Except.ok.injEq] at h
      subst h
      exact ⟨⟨by simp, rfl, hp⟩, by simp⟩
    · rw [if_neg hp] at h
      exact absurd h (by simp)

theorem VelocitySet.create_contains_false {bc hw : Nat} {s : VelocitySet}
    (h : VelocitySet.create bc hw = .ok s) (k : Int) :
    s.Contains k = false := by
  obtain ⟨hwf, hrep⟩ := VelocitySet.create_ok h
  rw [VelocitySet.Contains, hrep, list_getD_replicate]
  simp

theorem VelocitySet.create_size_zero {bc hw : Nat} {s : VelocitySet}
    (h : VelocitySet.create bc hw = .ok s) :
    s.GetApproximateSize = 0 := by
  obtain ⟨hwf, hrep⟩ := VelocitySet.create_ok h
  rw [VelocitySet.GetApproximateSize, hrep]
  apply List.sum_eq_zero
  intro x hx
  rw [List.mem_map] at hx
  obtain ⟨b, hb, hbx⟩ := hx
  rw [List.eq_of_mem_replicate hb] at hbx
  rw [← hbx]
  rfl

theorem VelocitySet.BucketInv.insertOp {s : VelocitySet} (hw : s.WF)
    (hb : s.BucketInv) (k : Int) : (s.Insert k).BucketInv := by
  intro j hj k' hk'
  have hi := hw.hash_lt k
  have hj' : j < s.buckets_.length := by
    rw [← (VelocitySet.Insert_fields s k).2.2]
    exact hj
  rw [VelocitySet.hash_Insert]
  by_cases hij : j = s.hash_to_index k
  · subst hij
    rw [VelocitySet.Insert_buckets, list_getD_set_self _ _ _ _ hi] at hk'
    rcases Finset.mem_insert.1 hk' with rfl | hmem
    · rfl
    · exact hb _ hi k' hmem
  · rw [VelocitySet.Insert_frame s k j hij] at hk'
    exact hb _ hj' _ hk'

theorem VelocitySet.BucketInv.removeOp {s : VelocitySet} (hw : s.WF)
    (hb : s.BucketInv) (k : Int) : (s.Remove k).BucketInv := by
  intro j hj k' hk'
  have hi := hw.hash_lt k
  have hj' : j < s.buckets_.length := by
    rw [← (VelocitySet.Remove_fields s k).2.2]
    exact hj
  rw [VelocitySet.hash_Remove]
  by_cases hij : j = s.hash_to_index k
  · subst hij
    rw [VelocitySet.Remove_buckets, list_getD_set_self _ _ _ _ hi] at hk'
    exact hb _ hi k' (Finset.mem_of_mem_erase hk')
  · rw [VelocitySet.Remove_frame s k j hij] at hk'
    exact hb _ hj' _ hk'

theorem VelocitySet.BucketInv.clearOp {s : VelocitySet}
    (_hb : s.BucketInv) : s.Clear.BucketInv := by
  intro j hj k' hk'
  exfalso
  rw [show s.Clear.buckets_ = s.buckets_.map (fun _ => (∅ : Finset Int))
    from rfl, List.getD_eq_getElem?_getD, List.getElem?_map] at hk'
  cases hx : s.buckets_[j]? with
  | none => rw [hx] at hk'; simp at hk'
  | some b => rw [hx] at hk'; simp at hk'

theorem VelocitySet.run_preserves {s : VelocitySet}
    (h : s.WF ∧ s.BucketInv) (ops : List Op) :
    (s.run ops).WF ∧ (s.run ops).BucketInv := by
  induction ops generalizing s with
  | nil => exact h
  | cons a t ih =>
    rw [VelocitySet.run, List.foldl_cons]
    cases a with
    | ins k => exact ih ⟨h.1.insert k, h.2.insertOp h.1 k⟩
    | del k => exact ih ⟨h.1.remove k, h.2.removeOp h.1 k⟩
    | clear => exact ih ⟨h.1.clear, h.2.clearOp⟩

theorem VelocitySet.memSet_iff_contains {s : VelocitySet} (hw : s.WF)
    (hb : s.BucketInv) (k : Int) :
    s.MemSet k ↔ s.Contains k = true := by
  constructor
  · rintro ⟨i, hi, hmem⟩
    have hidx := hb i hi k hmem
    rw [VelocitySet.Contains, hidx]
    exact decide_eq_true hmem
  · intro hc
    refine ⟨s.hash_to_index k, hw.hash_lt k, ?_⟩
    rw [VelocitySet.Contains] at hc
    exact of_decide_eq_true hc

theorem VelocitySet.create_bucketInv {bc hw : Nat} {s : VelocitySet}
    (h : VelocitySet.create bc hw = .ok s) : s.BucketInv := by
  obtain ⟨hwf, hrep⟩ := VelocitySet.create_ok h
  intro i hi k hk
  exfalso
  rw [hrep, list_getD_replicate] at hk
  simp at hk

end velocity

/-- Simulation relation between the two implementations: same bucket
contents, and the stored VelocitySet mask coincides with the mask that
ConcurrentSet recomputes from its vector length. -/
def SimRel (v : velocity.VelocitySet) (c : Impl1.ConcurrentSet) : Prop :=
  v.buckets_ = c.buckets_ ∧ v.bucket_mask_ = c.buckets_.length - 1

theorem simRel_index {v : velocity.VelocitySet} {c : Impl1.ConcurrentSet}
    (h : SimRel v c) (k : Int) :
    v.hash_to_index k = c.bucketIndex k := by
  rw [velocity.VelocitySet.hash_to_index, Impl1.ConcurrentSet.bucketIndex,
    h.2]

theorem simRel_include {v : velocity.VelocitySet} {c : Impl1.ConcurrentSet}
    (h : SimRel v c) (k : Int) : SimRel (v.Insert k) (c.Include k) := by
  constructor
  · rw [velocity.VelocitySet.Insert_buckets, simRel_index h, h.1]
    rfl
  · rw [show (c.Include k).buckets_
        = c.buckets_.set (c.bucketIndex k)
            (insert k (c.buckets_.getD (c.bucketIndex k) ∅)) from rfl,
      List.length_set]
    exact h.2

theorem simRel_exclude {v : velocity.VelocitySet} {c : Impl1.ConcurrentSet}
    (h : SimRel v c) (k : Int) : SimRel (v.Remove k) (c.Exclude k) := by
  constructor
  · rw [velocity.VelocitySet.Remove_buckets, simRel_index h, h.1]
    rfl
  · rw [show (c.Exclude k).buckets_
        = c.buckets_.set (c.bucketIndex k)
            ((c.buckets_.getD (c.bucketIndex k) ∅).erase k) from rfl,
      List.length_set]
    exact h.2

theorem simRel_contains {v : velocity.VelocitySet} {c : Impl1.ConcurrentSet}
    (h : SimRel v c) (k : Int) : v.Contains k = c.Contains k := by
  rw [velocity.VelocitySet.Contains, Impl1.ConcurrentSet.Contains,
    simRel_index h, h.1]

theorem simRel_runCore {v : velocity.VelocitySet} {c : Impl1.ConcurrentSet}
    (h : SimRel v c) (ops : List CoreOp) :
    SimRel (v.runCore ops) (c.runCore ops) := by
  induction ops generalizing v c with
  | nil => exact h
  | cons a t ih =>
    cases a with
    | ins k => exact ih (simRel_include h k)
    | del k => exact ih (simRel_exclude h k)

namespace velocity

/-- A concrete constructed set with four buckets (what create 4 hw
returns), used to instantiate the universally quantified theorems. -/
def sample4 : VelocitySet :=
  { buckets_ := List.replicate 4 ∅, buckets_count_ := 4, bucket_mask_ := 3 }

end velocity

/-- C1: construction with a non-zero bucket count that is not a power of
two fails with the InvalidConfiguration error and no Set is produced,
while construction with a non-zero power of two succeeds and
GetBucketCount returns exactly the requested value. -/
theorem claim_C1 (n hw : Nat) (hn : n ≠ 0) :
    (¬ (∃ j, n = 2 ^ j) →
      velocity.VelocitySet.create n hw
        = .error velocity.ConfigError.InvalidConfiguration) ∧
    ((∃ j, n = 2 ^ j) →
      ∃ s, velocity.VelocitySet.create n hw = .ok s
        ∧ s.GetBucketCount = n) := by
  constructor
  · intro hnp
    have hfalse : velocity.is_power_of_two n = false := by
      cases hx : velocity.is_power_of_two n
      · rfl
      · exact absurd (velocity.is_power_of_two_iff.1 hx) hnp
    rw [velocity.VelocitySet.create, if_neg hn,
      if_neg (by rw [hfalse]; exact Bool.false_ne_true)]
  · intro hp
    have htrue := velocity.is_power_of_two_iff.2 hp
    rw [velocity.VelocitySet.create, if_neg hn, if_pos htrue]
    exact ⟨_, rfl, rfl⟩

theorem claim_C1_witness :
    (velocity.VelocitySet.create 100 0
      = .error velocity.ConfigError.InvalidConfiguration) ∧
    ∃ s, velocity.VelocitySet.create 128 0 = .ok s
      ∧ s.GetBucketCount = 128 :=
  ⟨(claim_C1 100 0 (by decide)).1 (fun hex => by
      obtain ⟨j, hj⟩ := hex
      rcases Nat.lt_or_ge j 7 with hlt | hge
      · interval_cases j <;> omega
      · have h2 : 2 ^ 7 ≤ 2 ^ j := Nat.pow_le_pow_right (by omega) hge
        norm_num at h2
        omega),
   (claim_C1 128 0 (by decide)).2 ⟨7, by norm_num⟩⟩

/-- C2: for every key, including negative ones which contribute their
unsigned 64-bit pattern, the bucket index used by Insert, Remove and
Contains is the unsigned bit pattern of the key bitwise-ANDed with
mask = bucket_count - 1, which equals reduction modulo the bucket count;
the three operations all route through this one index. -/
theorem claim_C2 (s : velocity.VelocitySet) (h : s.WF) (k : Int) :
    s.hash_to_index k = velocity.toSizeT k &&& (s.GetBucketCount - 1) ∧
    s.hash_to_index k = velocity.toSizeT k % s.GetBucketCount ∧
    (s.Insert k).buckets_
      = s.buckets_.set (s.hash_to_index k)
          (insert k (s.buckets_.getD (s.hash_to_index k) ∅)) ∧
    (s.Remove k).buckets_
      = s.buckets_.set (s.hash_to_index k)
          ((s.buckets_.getD (s.hash_to_index k) ∅).erase k) ∧
    s.Contains k
      = decide (k ∈ s.buckets_.getD (s.hash_to_index k) ∅) := by
  refine ⟨?_, velocity.VelocitySet.hash_eq_mod h k, rfl, rfl, rfl⟩
  rw [velocity.VelocitySet.hash_to_index, velocity.VelocitySet.GetBucketCount,
    h.2.1]

theorem claim_C2_witness :
    velocity.sample4.WF ∧
    (velocity.sample4.hash_to_index (-1)
        = velocity.toSizeT (-1) &&& (velocity.sample4.GetBucketCount - 1) ∧
      velocity.sample4.hash_to_index (-1)
        = velocity.toSizeT (-1) % velocity.sample4.GetBucketCount ∧
      (velocity.sample4.Insert (-1)).buckets_
        = velocity.sample4.buckets_.set (velocity.sample4.hash_to_index (-1))
            (insert (-1) (velocity.sample4.buckets_.getD
              (velocity.sample4.hash_to_index (-1)) ∅)) ∧
      (velocity.sample4.Remove (-1)).buckets_
        = velocity.sample4.buckets_.set (velocity.sample4.hash_to_index (-1))
            ((velocity.sample4.buckets_.getD
              (velocity.sample4.hash_to_index (-1)) ∅).erase (-1)) ∧
      velocity.sample4.Contains (-1)
        = decide ((-1 : Int) ∈ velocity.sample4.buckets_.getD
            (velocity.sample4.hash_to_index (-1)) ∅)) :=
  ⟨by decide, claim_C2 velocity.sample4 (by decide) (-1)⟩

/-- C3: single-threaded membership round-trip: from any well-formed
state, after Insert k the key is contained; after a subsequent Remove k
it is not. -/
theorem claim_C3 (s : velocity.VelocitySet) (h : s.WF) (k : Int) :
    (s.Insert k).Contains k = true ∧
    ((s.Insert k).Remove k).Contains k = false := by
  constructor
  · rw [velocity.VelocitySet.Contains_Insert h k k, decide_eq_true rfl,
      Bool.true_or]
  · rw [velocity.VelocitySet.Contains_Remove (h.insert k) k k,
      decide_eq_false (fun hx => hx rfl), Bool.false_and]

theorem claim_C3_witness :
    velocity.sample4.WF ∧
    ((velocity.sample4.Insert 5).Contains 5 = true ∧
      ((velocity.sample4.Insert 5).Remove 5).Contains 5 = false) :=
  ⟨by decide, claim_C3 velocity.sample4 (by decide) 5⟩

/-- C4: idempotence: inserting a key twice yields the same state as
inserting it once, so the approximate size is unchanged by the second
insertion and the key stays contained, and removing an absent key leaves
the state unchanged (and no error kind exists for it). -/
theorem claim_C4 (s : velocity.VelocitySet) (h : s.WF) (k : Int) :
    (s.Insert k).Insert k = s.Insert k ∧
    ((s.Insert k).Insert k).GetApproximateSize
      = (s.Insert k).GetApproximateSize ∧
    ((s.Insert k).Insert k).Contains k = true ∧
    (s.Contains k = false → s.Remove k = s) := by
  have hidem := velocity.VelocitySet.Insert_idem h k
  refine ⟨hidem, by rw [hidem], ?_, velocity.VelocitySet.Remove_absent h k⟩
  rw [hidem, velocity.VelocitySet.Contains_Insert h, decide_eq_true rfl,
    Bool.true_or]

theorem claim_C4_witness :
    velocity.sample4.WF ∧ velocity.sample4.Contains 6 = false ∧
    ((velocity.sample4.Insert 6).Insert 6 = velocity.sample4.Insert 6 ∧
      ((velocity.sample4.Insert 6).Insert 6).GetApproximateSize
        = (velocity.sample4.Insert 6).GetApproximateSize ∧
      ((velocity.sample4.Insert 6).Insert 6).Contains 6 = true ∧
      velocity.sample4.Remove 6 = velocity.sample4) := by
  refine ⟨by decide, by decide, ?_, ?_, ?_, ?_⟩
  · exact (claim_C4 velocity.sample4 (by decide) 6).1
  · exact (claim_C4 velocity.sample4 (by decide) 6).2.1
  · exact (claim_C4 velocity.sample4 (by decide) 6).2.2.1
  · exact (claim_C4 velocity.sample4 (by decide) 6).2.2.2 (by decide)

/-- C5: exact count without concurrency: sequentially inserting any
duplicate-free list of keys into a freshly constructed Set makes
GetApproximateSize return exactly the number of keys; after Clear the
size is zero and no key is contained. -/
theorem claim_C5 {bc hw : Nat} {s0 : velocity.VelocitySet}
    (hcreate : velocity.VelocitySet.create bc hw = .ok s0)
    (ks : List Int) (hnd : ks.Nodup) :
    (s0.insertList ks).GetApproximateSize = ks.length ∧
    ((s0.insertList ks).Clear).GetApproximateSize = 0 ∧
    ∀ k, ((s0.insertList ks).Clear).Contains k = false := by
  obtain ⟨hwf, hrep⟩ := velocity.VelocitySet.create_ok hcreate
  have h1 := velocity.VelocitySet.size_insertList hwf hnd
    (fun x _ => velocity.VelocitySet.create_contains_false hcreate x)
  rw [velocity.VelocitySet.create_size_zero hcreate] at h1
  refine ⟨by simpa using h1, velocity.VelocitySet.size_Clear _,
    fun k => velocity.VelocitySet.Contains_Clear _ k⟩

theorem claim_C5_witness :
    velocity.VelocitySet.create 4 0 = .ok velocity.sample4 ∧
    ([1, 2, 3] : List Int).Nodup ∧
    ((velocity.sample4.insertList [1, 2, 3]).GetApproximateSize = 3 ∧
      ((velocity.sample4.insertList [1, 2, 3]).Clear).GetApproximateSize
        = 0 ∧
      ∀ k, ((velocity.sample4.insertList [1, 2, 3]).Clear).Contains k
        = false) :=
  ⟨rfl, by decide, @claim_C5 4 0 velocity.sample4 rfl [1, 2, 3] (by decide)⟩

/-- C6 counterexample: the claim fails on the code. For ConcurrentSet,
hardware thread count 1 gives the default 16, which is below the claimed
floor of 128; for VelocitySet, hardware thread count 268435455
(= UINT_MAX / 16, where the guard skips the scaling) gives 128, while
the claimed formula max(128, next_power_of_two(hw * 16)) gives 2^32. -/
theorem claim_C6_counterexample :
    Impl1.optimalBuckets 1 = 16 ∧ ¬ 128 ≤ Impl1.optimalBuckets 1 ∧
    velocity.calculate_default_buckets 268435455 = 128 ∧
    max 128 (velocity.next_power_of_two (268435455 * 16)) = 4294967296 := by
  refine ⟨by decide, by decide, by decide, by decide⟩

/-- C6 amended: VelocitySet default sizing equals
max(128, next_power_of_two(hw * 16)) whenever hw is below the overflow
guard UINT_MAX / 16, and is 128 when the guard trips; it is always a
power of two and never below 128. ConcurrentSet default sizing has no
128 floor: for positive hw it is the least power of two at or above
hw * 16 (and 128 only for hw = 0), so it can fall below 128. -/
theorem claim_C6_amended :
    (∀ hw : Nat, hw < 4294967295 / 16 →
      velocity.calculate_default_buckets hw
        = max 128 (velocity.next_power_of_two (hw * 16))) ∧
    (∀ hw : Nat, 4294967295 / 16 ≤ hw →
      velocity.calculate_default_buckets hw = 128) ∧
    (∀ hw : Nat, 128 ≤ velocity.calculate_default_buckets hw ∧
      ∃ j, velocity.calculate_default_buckets hw = 2 ^ j) ∧
    Impl1.optimalBuckets 0 = 128 ∧
    (∀ hw : Nat, 0 < hw →
      Impl1.optimalBuckets hw = 2 ^ (hw * 16 - 1).size ∧
      hw * 16 ≤ Impl1.optimalBuckets hw ∧
      ∀ j, hw * 16 ≤ 2 ^ j → Impl1.optimalBuckets hw ≤ 2 ^ j) := by
  refine ⟨fun hw h => velocity.calculate_default_buckets_eq h,
    fun hw h => velocity.calculate_default_buckets_overflow h,
    velocity.calculate_default_buckets_spec, by decide,
    fun hw h0 => ⟨Impl1.optimalBuckets_pos_eq h0, Impl1.optimalBuckets_ge h0,
      fun j hj => Impl1.optimalBuckets_min h0 hj⟩⟩

theorem claim_C6_witness :
    (4 : Nat) < 4294967295 / 16 ∧
    velocity.calculate_default_buckets 4
      = max 128 (velocity.next_power_of_two (4 * 16)) ∧
    4294967295 / 16 ≤ 268435456 ∧
    velocity.calculate_default_buckets 268435456 = 128 ∧
    (0 : Nat) < 2 ∧
    Impl1.optimalBuckets 2 = 2 ^ (2 * 16 - 1 : Nat).size :=
  ⟨by decide, claim_C6_amended.1 4 (by decide), by decide,
    claim_C6_amended.2.1 268435456 (by decide), by decide,
    (claim_C6_amended.2.2.2.2 2 (by decide)).1⟩

/-- C7: bucket-assignment invariant: in every state reachable from a
freshly constructed Set by Insert, Remove and Clear operations, each
bucket holds only keys whose computed index is that bucket, and a key is
a member of the Set (in some bucket) exactly when Contains returns true,
namely when it sits in the bucket of its computed index. -/
theorem claim_C7 {bc hw : Nat} {s0 : velocity.VelocitySet}
    (hcreate : velocity.VelocitySet.create bc hw = .ok s0)
    (ops : List velocity.Op) :
    (s0.run ops).BucketInv ∧
    ∀ k, (s0.run ops).MemSet k ↔ (s0.run ops).Contains k = true := by
  have h0 : s0.WF ∧ s0.BucketInv :=
    ⟨(velocity.VelocitySet.create_ok hcreate).1,
     velocity.VelocitySet.create_bucketInv hcreate⟩
  have hp := velocity.VelocitySet.run_preserves h0 ops
  exact ⟨hp.2, fun k => velocity.VelocitySet.memSet_iff_contains hp.1 hp.2 k⟩

theorem claim_C7_witness :
    velocity.VelocitySet.create 4 0 = .ok velocity.sample4 ∧
    ((velocity.sample4.run
        [velocity.Op.ins 1, velocity.Op.ins 5, velocity.Op.del 1]).BucketInv ∧
      ∀ k, (velocity.sample4.run
          [velocity.Op.ins 1, velocity.Op.ins 5, velocity.Op.del 1]).MemSet k
        ↔ (velocity.sample4.run
            [velocity.Op.ins 1, velocity.Op.ins 5,
              velocity.Op.del 1]).Contains k = true) :=
  ⟨rfl, @claim_C7 4 0 velocity.sample4 rfl
    [velocity.Op.ins 1, velocity.Op.ins 5, velocity.Op.del 1]⟩

/-- C8: bucket independence: Insert and Remove leave every bucket other
than the one of their key unchanged, and for keys routed to different
buckets an Insert and a Remove commute, producing the identical final
state in either order. -/
theorem claim_C8 (s : velocity.VelocitySet) (k1 k2 : Int) :
    (∀ j, j ≠ s.hash_to_index k1 →
      (s.Insert k1).buckets_.getD j ∅ = s.buckets_.getD j ∅) ∧
    (∀ j, j ≠ s.hash_to_index k2 →
      (s.Remove k2).buckets_.getD j ∅ = s.buckets_.getD j ∅) ∧
    (s.hash_to_index k1 ≠ s.hash_to_index k2 →
      (s.Insert k1).Remove k2 = (s.Remove k2).Insert k1) :=
  ⟨fun j hj => velocity.VelocitySet.Insert_frame s k1 j hj,
   fun j hj => velocity.VelocitySet.Remove_frame s k2 j hj,
   fun hne => velocity.VelocitySet.Insert_Remove_comm s k1 k2 hne⟩

theorem claim_C8_witness :
    (0 : Nat) ≠ velocity.sample4.hash_to_index 1 ∧
    (velocity.sample4.Insert 1).buckets_.getD 0 ∅
      = velocity.sample4.buckets_.getD 0 ∅ ∧
    velocity.sample4.hash_to_index 1 ≠ velocity.sample4.hash_to_index 2 ∧
    (velocity.sample4.Insert 1).Remove 2
      = (velocity.sample4.Remove 2).Insert 1 :=
  ⟨by decide, (claim_C8 velocity.sample4 1 2).1 0 (by decide), by decide,
   (claim_C8 velocity.sample4 1 2).2.2 (by decide)⟩

/-- C10: observational equivalence of the two implementations on the
core operations: constructed with the same power-of-two bucket count and
run over the same sequence of insertions and removals, VelocitySet and
ConcurrentSet return the same boolean for every Contains query. -/
theorem claim_C10 (j hw : Nat) (ops : List CoreOp) (k : Int) :
    ∃ v, velocity.VelocitySet.create (2 ^ j) hw = .ok v ∧
      (v.runCore ops).Contains k
        = ((Impl1.ConcurrentSet.create (2 ^ j)).runCore ops).Contains k := by
  refine ⟨{ buckets_ := List.replicate (2 ^ j) ∅, buckets_count_ := 2 ^ j,
            bucket_mask_ := 2 ^ j - 1 }, ?_, ?_⟩
  · rw [velocity.VelocitySet.create,
      if_neg (Nat.pos_pow_of_pos j (by omega)).ne',
      if_pos (velocity.is_power_of_two_iff.2 ⟨j, rfl⟩)]
  · have hsim : SimRel
        { buckets_ := List.replicate (2 ^ j) ∅, buckets_count_ := 2 ^ j,
          bucket_mask_ := 2 ^ j - 1 }
        (Impl1.ConcurrentSet.create (2 ^ j)) := by
      refine ⟨rfl, ?_⟩
      rw [show (Impl1.ConcurrentSet.create (2 ^ j)).buckets_
          = List.replicate (2 ^ j) ∅ from rfl, List.length_replicate]
    exact simRel_contains (simRel_runCore hsim ops) k
